import Mathlib

/-!
Shallow embedding of the mini-lsm storage engine core, translated from the
repository sources:

* `src/storage/src/utils/storage_engine_iterator.rs` (`StorageEngineItertor`)
* `src/storage/src/utils/two_merge_iterators.rs` (`TwoMergeIterator`)
* `src/storage/src/storage.rs` (`Storage` facade)
* `src/storage/src/compaction/compaction.rs` (`CompactionThread`)

Collaborators whose sources are not part of the repository snapshot
(`Key`, the `StorageIterator` child iterators, `TransactionManager`,
`Manifest`, `Keyspaces`) are modelled from the specification where needed;
each such definition carries a doc comment starting with
"Modelled from the spec:".
-/

namespace MiniLsm

/-- Modelled from the spec: a versioned key (§3 DATA MODEL) is a pair
(user_key: byte string, txn_id); `key.rs` is not part of the source
snapshot.  Bytes are modelled as lists of naturals. -/
structure Key where
  bytes : List Nat
  txnId : Nat
deriving DecidableEq, Repr

abbrev Value := List Nat

abbrev Entry := Key × Value

/-- Lexicographic strict order on byte strings, as implemented by `Ord` on
Rust byte slices (`Bytes::gt` / `Bytes::ge` compare lexicographically,
with a proper prefix ordered first). -/
def ltBytes : List Nat → List Nat → Bool
  | [], [] => false
  | [], _ :: _ => true
  | _ :: _, [] => false
  | a :: as, b :: bs => if a < b then true else if b < a then false else ltBytes as bs

/-- `a ≤ b` on byte strings: `a.ge(b)` in Rust is `¬ (a < b)` for the total
lexicographic order on byte slices. -/
def leBytes (a b : List Nat) : Bool := !(ltBytes b a)

/-- Result type of the user-supplied value merger
(`shared::StorageValueMergeResult`). -/
inductive StorageValueMergeResult where
  | Ok : Value → StorageValueMergeResult
  | DiscardPrevious : StorageValueMergeResult

/-- Type of the optional `storage_value_merger` configuration entry. -/
abbrev Merger := Value → Value → StorageValueMergeResult

/-- Modelled from the spec: the `StorageIterator` contract (§4.7, §9) over a
finite list of entries.  `current` is the entry the iterator is positioned
on (`key()`/`value()` read it), `rest` the entries a future `next()` will
visit.  The concrete child iterators (`MemtableIterator`, `MergeIterator`,
`SSTableIterator`) are not part of the source snapshot. -/
structure InnerIter where
  current : Option Entry
  rest : List Entry
deriving Repr

namespace InnerIter

/-- `next()` advances to the following entry and reports success; at
exhaustion it returns `false` and leaves the position unchanged. -/
def next : InnerIter → InnerIter × Bool
  | ⟨c, []⟩ => (⟨c, []⟩, false)
  | ⟨_, e :: r⟩ => (⟨some e, r⟩, true)

/-- `has_next()` holds iff a further call to `next()` would return `true`
(spec §9: stated there as the iterator contract). -/
def hasNext (it : InnerIter) : Bool := !it.rest.isEmpty

/-- `key()`; `none` models the panic of reading a key with no current
entry. -/
def key (it : InnerIter) : Option Key := it.current.map Prod.fst

/-- `value()`; `none` models the panic of reading with no current entry. -/
def value (it : InnerIter) : Option Value := it.current.map Prod.snd

/-- A fresh iterator over `entries`, positioned before the first entry. -/
def fresh (entries : List Entry) : InnerIter := ⟨none, entries⟩

end InnerIter

/-! ## StorageEngineItertor (storage_engine_iterator.rs)

The struct name `StorageEngineItertor` keeps the source's spelling.  The
iterator is a state machine; `seiNext`/`seiRun` below drive it with fuel so
that the source's unbounded loops (which can fail to terminate, see
`find_entries`) have a total model: a `none` result models a panic or a
diverging loop. -/

structure StorageEngineItertor where
  merger : Option Merger
  inner : InnerIter
  entries_to_return : List Entry
  current_key : Option Key
  current_value : Option Value
  seeked_key : Option (List Nat)
  is_seeked_key_inclusive : Bool
  last_entry_returned : Bool

namespace StorageEngineItertor

/-- `StorageEngineItertor::create` (storage_engine_iterator.rs:46-63): prime
the inner iterator once if it has a next entry; every other field starts
empty. -/
def create (merger : Option Merger) (entries : List Entry) : StorageEngineItertor :=
  let it0 := InnerIter.fresh entries
  let it1 := if it0.hasNext then (it0.next).1 else it0
  { merger := merger
    inner := it1
    entries_to_return := []
    current_key := none
    current_value := none
    seeked_key := none
    is_seeked_key_inclusive := false
    last_entry_returned := false }

/-- `StorageEngineItertor::create_seeked_key` (storage_engine_iterator.rs:34-44). -/
def create_seeked_key (merger : Option Merger) (entries : List Entry)
    (seeked : List Nat) (inclusive : Bool) : StorageEngineItertor :=
  { create merger entries with seeked_key := some seeked, is_seeked_key_inclusive := inclusive }

/-- One step of the merging loop of `merge_entry_values`
(storage_engine_iterator.rs:116-128): the accumulator starts at the first
popped entry; `Ok(merged)` keeps the merged value under the newer key;
`DiscardPrevious` resets the accumulator to the newer entry. -/
def mergeFold (f : Merger) (acc : Entry) : List Entry → Entry
  | [] => acc
  | (k, v) :: rest =>
    match f acc.2 v with
    | .Ok m => mergeFold f (k, m) rest
    | .DiscardPrevious => mergeFold f (k, v) rest

/-- `StorageEngineItertor::merge_entry_values` (storage_engine_iterator.rs:107-132):
returns the deque unchanged when no merger is configured or it holds at
most one entry; otherwise drains it front to back folding with the merger
and leaves the single merged entry. -/
def merge_entry_values (merger : Option Merger) (es : List Entry) : List Entry :=
  match merger with
  | none => es
  | some f =>
    if es.length ≤ 1 then es
    else
      match es with
      | [] => es
      | e0 :: rest => [mergeFold f e0 rest]

/-- The `while has_next` loop inside `find_entries`
(storage_engine_iterator.rs:84-96), entered only when `has_next` was true
at the start of `find_entries` and never re-evaluated (the source reads
`has_next` once).  Given the bytes `gb` of the current user_key it
consumes entries equal to `gb`, returning the consumed run and the inner
iterator positioned on the first differing entry.  When the inner list is
exhausted while keys are still equal the source keeps pushing the stale
current entry forever (its `next()` fails but `key()` is re-read); that
divergence is modelled by `none`. -/
def collectLoop (gb : List Nat) : List Entry → Option (List Entry × InnerIter)
  | [] => none
  | e :: r =>
    if e.1.bytes = gb then
      (collectLoop gb r).map (fun p => (e :: p.1, p.2))
    else
      some ([], ⟨some e, r⟩)

/-- `StorageEngineItertor::find_entries` (storage_engine_iterator.rs:74-105):
push the inner iterator's current entry, collect the following entries
with the same user_key bytes, set `last_entry_returned` when the inner
iterator had no next entry on entry, then run `merge_entry_values` over
the whole deque.  `none` models the panic of `inner_iterator.key()`
without a current entry, or the divergence of the collection loop. -/
def find_entries (s : StorageEngineItertor) : Option StorageEngineItertor :=
  match s.inner.current with
  | none => none
  | some e =>
    if s.inner.hasNext then
      match collectLoop e.1.bytes s.inner.rest with
      | none => none
      | some (c, it') =>
        some { s with
                inner := it'
                entries_to_return := merge_entry_values s.merger (s.entries_to_return ++ (e :: c)) }
    else
      some { s with
              last_entry_returned := true
              entries_to_return := merge_entry_values s.merger (s.entries_to_return ++ [e]) }

/-- `StorageEngineItertor::do_do_next` (storage_engine_iterator.rs:134-147):
return `false` once `last_entry_returned` has been set; refill the deque
via `find_entries` when empty; pop the front entry into
`current_key`/`current_value`.  `none` models a panic inside
`find_entries` or of the `unwrap` on an empty deque. -/
def do_do_next (s : StorageEngineItertor) : Option (StorageEngineItertor × Bool) :=
  if s.last_entry_returned then
    some (s, false)
  else
    match (if s.entries_to_return.isEmpty then find_entries s else some s) with
    | none => none
    | some s' =>
      match s'.entries_to_return with
      | [] => none
      | e :: rest =>
        some ({ s' with
                 entries_to_return := rest
                 current_key := some e.1
                 current_value := some e.2 }, true)

/-- `key() ≥ seeked` (inclusive) or `key() > seeked` (exclusive), as tested
in `StorageIterator::next` for `StorageEngineItertor`
(storage_engine_iterator.rs:154-158). -/
def inBound (inclusive : Bool) (seeked b : List Nat) : Bool :=
  if inclusive then leBytes seeked b else ltBytes seeked b

/-- `StorageIterator::next` for `StorageEngineItertor`
(storage_engine_iterator.rs:151-170): loop `do_do_next`; with no seek
bound every successful step yields; with a seek bound, entries below the
bound are skipped and the bound is cleared on the first in-bound entry.
Fueled; `none` models a panic/divergence (including fuel exhaustion, which
only ever cuts a run short). -/
def seiNext : Nat → StorageEngineItertor → Option (StorageEngineItertor × Bool)
  | 0, _ => none
  | fuel + 1, s =>
    match do_do_next s with
    | none => none
    | some (s', false) => some (s', false)
    | some (s', true) =>
      match s'.seeked_key with
      | none => some (s', true)
      | some sk =>
        match s'.current_key with
        | none => none
        | some k =>
          if inBound s'.is_seeked_key_inclusive sk k.bytes then
            some ({ s' with seeked_key := none }, true)
          else
            seiNext fuel s'

/-- Drive the iterator: the list of `(key, value)` pairs yielded by
successive `next()` calls that returned `true`. -/
def seiRun : Nat → StorageEngineItertor → List Entry
  | 0, _ => []
  | fuel + 1, s =>
    match seiNext (fuel + 1) s with
    | some (s', true) =>
      match s'.current_key, s'.current_value with
      | some k, some v => (k, v) :: seiRun fuel s'
      | _, _ => []
    | _ => []

end StorageEngineItertor

/-! ## TwoMergeIterator (two_merge_iterators.rs) -/

/-- Modelled from the spec: ordering of versioned keys (§3 DATA MODEL):
ascending by user_key bytes, then descending by txn_id so newer versions
come first; `key.rs` with the `Ord` instance is not part of the source
snapshot.  `keyGt k1 k2` embeds Rust's `k1 > k2`. -/
def keyLt (k1 k2 : Key) : Bool :=
  ltBytes k1.bytes k2.bytes || (k1.bytes == k2.bytes && k2.txnId < k1.txnId)

def keyGt (k1 k2 : Key) : Bool := keyLt k2 k1

structure TwoMergeIterator where
  a : InnerIter
  b : InnerIter
  choose_a : Bool
  current_value_a : Bool
  first_iteration : Bool
deriving Repr

namespace TwoMergeIterator

/-- `TwoMergeIterator::choose_a` (two_merge_iterators.rs:22-31).  The key
reads are only reached when both children have a next entry, in which
case both were primed by `new` and hold a current entry; the `false`
fallback is unreachable there. -/
def chooseAFn (a b : InnerIter) : Bool :=
  if !a.hasNext then false
  else if !b.hasNext then true
  else
    match a.current, b.current with
    | some ea, some eb => keyGt ea.1 eb.1
    | _, _ => false

/-- The loop of `TwoMergeIterator::skip_b_duplicates`
(two_merge_iterators.rs:33-37), structurally recursive on `b`'s remaining
entries: while both children have a next entry and their current keys are
equal, advance `b`. -/
def skipBLoop (a : InnerIter) (bcur : Option Entry) : List Entry → InnerIter
  | [] => ⟨bcur, []⟩
  | e :: r =>
    if a.hasNext &&
        (match a.current, bcur with
         | some ea, some eb => ea.1 == eb.1
         | _, _ => false) then
      skipBLoop a (some e) r
    else
      ⟨bcur, e :: r⟩

/-- `TwoMergeIterator::skip_b_duplicates` (two_merge_iterators.rs:33-37). -/
def skip_b_duplicates (a : InnerIter) (b : InnerIter) : InnerIter :=
  skipBLoop a b.current b.rest

/-- `TwoMergeIterator::new` (two_merge_iterators.rs:13-20): prime both
children unconditionally, then compute `choose_a`. -/
def new (ea eb : List Entry) : TwoMergeIterator :=
  let a := ((InnerIter.fresh ea).next).1
  let b := ((InnerIter.fresh eb).next).1
  let ca := chooseAFn a b
  { a := a, b := b, choose_a := ca, current_value_a := ca, first_iteration := true }

/-- `StorageIterator::next` for `TwoMergeIterator`
(two_merge_iterators.rs:41-62): on the first call only clear the flag and
report `has_next`; afterwards advance the chosen child, record which side
holds the current value, skip B-side duplicates and recompute
`choose_a`. -/
def next (t : TwoMergeIterator) : TwoMergeIterator × Bool :=
  if t.first_iteration then
    ({ t with first_iteration := false }, t.a.hasNext || t.b.hasNext)
  else
    let (t1, advanced) :=
      if t.choose_a then
        let (a', adv) := t.a.next
        ({ t with a := a', current_value_a := true }, adv)
      else
        let (b', adv) := t.b.next
        ({ t with b := b', current_value_a := false }, adv)
    let t2 := { t1 with b := skip_b_duplicates t1.a t1.b }
    let t3 := { t2 with choose_a := chooseAFn t2.a t2.b }
    (t3, advanced)

/-- `has_next` for `TwoMergeIterator` (two_merge_iterators.rs:64-66). -/
def hasNext (t : TwoMergeIterator) : Bool := t.a.hasNext || t.b.hasNext

/-- `key()` (two_merge_iterators.rs:68-74). -/
def key (t : TwoMergeIterator) : Option Key :=
  if t.current_value_a then t.a.key else t.b.key

/-- `value()` (two_merge_iterators.rs:76-82). -/
def value (t : TwoMergeIterator) : Option Value :=
  if t.current_value_a then t.a.value else t.b.value

/-- Drive the iterator the way the repository's own test does
(two_merge_iterators.rs:114-139): while `has_next()`, call `next()` and
read `key()`/`value()`. -/
def tmRun : Nat → TwoMergeIterator → List Entry
  | 0, _ => []
  | fuel + 1, t =>
    if t.hasNext then
      let (t', _) := t.next
      match t'.key, t'.value with
      | some k, some v => (k, v) :: tmRun fuel t'
      | _, _ => []
    else []

end TwoMergeIterator

/-! ## Transaction manager model and Storage facade (storage.rs) -/

/-- `IsolationLevel` (transaction_manager.rs, spelling from storage.rs
which uses `IsolationLevel::ReadUncommited`). -/
inductive IsolationLevel where
  | SnapshotIsolation
  | ReadUncommited
deriving DecidableEq, Repr

/-- Modelled from the spec: the durable transaction-log records of §4.8
(commit and rollback events); `transaction_manager.rs` is not part of the
source snapshot. -/
inductive TxnLogRecord where
  | commitRec : Nat → TxnLogRecord
  | rollbackRec : Nat → TxnLogRecord
deriving DecidableEq, Repr

/-- Modelled from the spec: transaction-manager state (§4.8): a monotonic
`next_txn_id` counter, the set of active txn_ids, and the durable log. -/
structure TxnMgr where
  nextTxnId : Nat
  active : List Nat
  log : List TxnLogRecord
deriving DecidableEq, Repr

namespace TxnMgr

/-- Modelled from the spec: `start(isolation) → Txn` allocates the next
txn_id and adds it to the active set (§4.8). -/
def startTransaction (st : TxnMgr) (_iso : IsolationLevel) : Nat × TxnMgr :=
  (st.nextTxnId, ⟨st.nextTxnId + 1, st.nextTxnId :: st.active, st.log⟩)

/-- Modelled from the spec: `commit` removes the txn from the active set
and appends a commit record (§4.8). -/
def commit (st : TxnMgr) (txnId : Nat) : TxnMgr :=
  ⟨st.nextTxnId, st.active.erase txnId, st.log ++ [.commitRec txnId]⟩

/-- Modelled from the spec: `rollback` appends a rollback record (§4.8)
and drops the transaction from the active set. -/
def rollback (st : TxnMgr) (txnId : Nat) : TxnMgr :=
  ⟨st.nextTxnId, st.active.erase txnId, st.log ++ [.rollbackRec txnId]⟩

/-- Modelled from the spec: `rollback_active_transaction_failure` silently
force-aborts the transaction (§4.9 step 5: "others are force-aborted
silently"), i.e. removes it from the active set without appending any log
record. -/
def rollback_active_transaction_failure (st : TxnMgr) (txnId : Nat) : TxnMgr :=
  ⟨st.nextTxnId, st.active.erase txnId, st.log⟩

end TxnMgr

/-- `Storage::rollback_active_transactions` (storage.rs:162-178): snapshot
the active txn_ids, then for each one either issue a rollback (when some
keyspace holds a physical write of it) or force-abort it via
`rollback_active_transaction_failure`.  `written` abstracts
`Keyspaces::has_txn_id_been_written`, whose source is not in the
snapshot. -/
def rollback_active_transactions (written : Nat → Bool) (st : TxnMgr) : TxnMgr :=
  st.active.foldl
    (fun acc id =>
      if written id then acc.rollback id
      else acc.rollback_active_transaction_failure id)
    st

/-- `Storage::scan_all` (storage.rs:51-54): start a `SnapshotIsolation`
transaction and delegate to `scan_all_with_transaction`.  The returned
value has the alias type `StorageIterator =
TwoMergeIterator<MergeIterator<MemtableIterator>, MergeIterator<SSTableIterator>>`
(storage.rs:24); the keyspace internals behind
`Keyspace::scan_all_with_transaction` are modelled from the spec (§4.7:
the two-way merge fuses the memtable tier `A` with the SSTable tier `B`;
the transaction is consumed for visibility only).  No reference to the
transaction or the transaction manager is stored in the returned
iterator, which is what `Storage::scan_all` in the source builds. -/
def scan_all (st : TxnMgr) (memEntries sstEntries : List Entry) :
    TwoMergeIterator × TxnMgr :=
  let (_txn, st') := st.startTransaction .SnapshotIsolation
  (TwoMergeIterator.new memEntries sstEntries, st')

/-- Dropping a value of the alias type `StorageIterator` (a
`TwoMergeIterator`): the source declares no `Drop` impl for
`TwoMergeIterator`, so dropping it performs no action on the transaction
manager. -/
def dropStorageIterator (_it : TwoMergeIterator) (st : TxnMgr) : TxnMgr := st

/-- `impl Drop for StorageEngineItertor` (storage_engine_iterator.rs:185-191):
commit the recorded transaction iff a transaction manager was attached via
`set_transaction_standalone`. -/
def dropStorageEngineItertor (transactionManagerAttached : Bool) (txnId : Nat)
    (st : TxnMgr) : TxnMgr :=
  if transactionManagerAttached then st.commit txnId else st

/-! ## Manifest and the compaction worker loop (compaction.rs) -/

/-- Modelled from the spec: manifest records (§4.5): `Operation{op_id, …}`
and `Completion{op_id}`; `manifest.rs` is not part of the source
snapshot.  The operation payload is irrelevant to the claims and is
omitted. -/
inductive ManifestRecord where
  | operation : Nat → ManifestRecord
  | completion : Nat → ManifestRecord
deriving DecidableEq, Repr

/-- One iteration of `CompactionThread::start_compactions` with a proposed
task (compaction.rs:92-102), parametrised by the outcomes of the two
fallible collaborators: `appendOutcome` is `some op_id` when
`Manifest::append_operation` succeeded (modelled from the spec §4.5: the
operation record is appended and its id returned), and `compactFails`
tells whether `self.compact(task)` returned an error.  The source logs a
compaction error and then appends the completion record whenever
`operation_id` was `Ok`, independently of the compaction result. -/
def start_compactions_iteration (manifest : List ManifestRecord)
    (appendOutcome : Option Nat) (compactFails : Bool) : List ManifestRecord :=
  match appendOutcome with
  | none => manifest
  | some opId =>
    let m1 := manifest ++ [.operation opId]
    -- `if let Err(e) = self.compact(task) { log }`: the error is only logged
    let _ := compactFails
    -- `if let Ok(operation_id) = operation_id { mark_as_completed }`
    m1 ++ [.completion opId]

/-! ## write_batch and the standalone single-shot operations (storage.rs) -/

/-- `WriteBatch` (storage.rs:19-22). -/
inductive WriteBatch where
  | Put : Nat → String → Value → WriteBatch
  | Delete : Nat → String → WriteBatch
deriving DecidableEq, Repr

/-- Observable events of the Storage facade: starting a transaction
(with its isolation level) and applying a write under a txn_id. -/
inductive StorageEvent where
  | startTxn : Nat → IsolationLevel → StorageEvent
  | setOp : Nat → String → Value → Nat → StorageEvent
  | deleteOp : Nat → String → Nat → StorageEvent
deriving DecidableEq, Repr

def StorageEvent.isStartTxn : StorageEvent → Bool
  | .startTxn _ _ => true
  | _ => false

/-- The txn_id an operation event runs under (`none` for `startTxn`). -/
def StorageEvent.opTxnId : StorageEvent → Option Nat
  | .startTxn _ _ => none
  | .setOp _ _ _ t => some t
  | .deleteOp _ _ t => some t

/-- The loop body of `Storage::write_batch` (storage.rs:126-135): each
record is applied through `set_with_transaction` /
`delete_with_transaction` with the one transaction `txnId`; `fails`
abstracts the `Result` of the keyspace write, and the `?` operator makes
an error abort the remainder of the batch. -/
def write_batch_events (fails : WriteBatch → Bool) (txnId : Nat) :
    List WriteBatch → List StorageEvent
  | [] => []
  | r :: rest =>
    let ev := match r with
      | .Put ks k v => StorageEvent.setOp ks k v txnId
      | .Delete ks k => StorageEvent.deleteOp ks k txnId
    if fails r then [ev]
    else ev :: write_batch_events fails txnId rest

/-- `Storage::write_batch` (storage.rs:124-138): start one
`SnapshotIsolation` transaction, then apply every record of the batch
under it. -/
def write_batch (fails : WriteBatch → Bool) (st : TxnMgr) (batch : List WriteBatch) :
    List StorageEvent :=
  let (txn, _st') := st.startTransaction .SnapshotIsolation
  StorageEvent.startTxn txn .SnapshotIsolation :: write_batch_events fails txn batch

/-- The standalone `Storage::get` (storage.rs:65-72): start a
`SnapshotIsolation` transaction, then delegate to
`get_with_transaction`. -/
def get_standalone (st : TxnMgr) (_ks : Nat) (_key : String) : List StorageEvent :=
  let (txn, _st') := st.startTransaction .SnapshotIsolation
  [.startTxn txn .SnapshotIsolation]

/-- The standalone `Storage::set` (storage.rs:84-92): start a
`SnapshotIsolation` transaction, then delegate to
`set_with_transaction`. -/
def set_standalone (st : TxnMgr) (ks : Nat) (key : String) (v : Value) :
    List StorageEvent :=
  let (txn, _st') := st.startTransaction .SnapshotIsolation
  [.startTxn txn .SnapshotIsolation, .setOp ks key v txn]

/-- The standalone `Storage::delete` (storage.rs:105-112): start a
`ReadUncommited` transaction, then delegate to
`delete_with_transaction`. -/
def delete_standalone (st : TxnMgr) (ks : Nat) (key : String) : List StorageEvent :=
  let (txn, _st') := st.startTransaction .ReadUncommited
  [.startTxn txn .ReadUncommited, .deleteOp ks key txn]

/-- The transaction start performed by `Storage::scan_all` (storage.rs:52),
as an event. -/
def scan_all_start_event (st : TxnMgr) : StorageEvent :=
  .startTxn (st.startTransaction .SnapshotIsolation).1 .SnapshotIsolation

/-- The isolation level a standalone facade operation starts its
transaction with. -/
def startedIsolation : List StorageEvent → Option IsolationLevel
  | .startTxn _ iso :: _ => some iso
  | _ => none

/-! ## Order lemmas for the lexicographic byte order -/

theorem ltBytes_irrefl : ∀ a : List Nat, ltBytes a a = false
  | [] => rfl
  | x :: xs => by simp [ltBytes, ltBytes_irrefl xs]

theorem ltBytes_trans : ∀ a b c : List Nat,
    ltBytes a b = true → ltBytes b c = true → ltBytes a c = true
  | _, [], [] => by intro _ h2; simp [ltBytes] at h2
  | _, _ :: _, [] => by intro _ h2; simp [ltBytes] at h2
  | [], [], _ => by intro h1 _; simp [ltBytes] at h1
  | _ :: _, [], _ => by intro h1 _; simp [ltBytes] at h1
  | [], _ :: _, _ :: _ => by intro _ _; simp [ltBytes]
  | x :: xs, y :: ys, z :: zs => by
    intro h1 h2
    simp only [ltBytes] at h1 h2 ⊢
    rcases Nat.lt_trichotomy x y with hxy | hxy | hxy
    · rcases Nat.lt_trichotomy y z with hyz | hyz | hyz
      · simp [Nat.lt_trans hxy hyz]
      · subst hyz; simp [hxy]
      · rw [if_neg (by omega), if_pos hyz] at h2; exact absurd h2 (by simp)
    · subst hxy
      rw [if_neg (Nat.lt_irrefl x), if_neg (Nat.lt_irrefl x)] at h1
      rcases Nat.lt_trichotomy x z with hxz | hxz | hxz
      · simp [hxz]
      · subst hxz
        rw [if_neg (Nat.lt_irrefl x), if_neg (Nat.lt_irrefl x)] at h2 ⊢
        exact ltBytes_trans xs ys zs h1 h2
      · rw [if_neg (by omega), if_pos hxz] at h2; exact absurd h2 (by simp)
    · rw [if_neg (by omega), if_pos hxy] at h1; exact absurd h1 (by simp)

theorem ltBytes_antisymm_eq : ∀ a b : List Nat,
    ltBytes a b = false → ltBytes b a = false → a = b
  | [], [] => by intro _ _; rfl
  | [], _ :: _ => by intro h1 _; simp [ltBytes] at h1
  | _ :: _, [] => by intro _ h2; simp [ltBytes] at h2
  | x :: xs, y :: ys => by
    intro h1 h2
    simp only [ltBytes] at h1 h2
    rcases Nat.lt_trichotomy x y with h | h | h
    · rw [if_pos h] at h1; exact absurd h1 (by simp)
    · subst h
      rw [if_neg (Nat.lt_irrefl x), if_neg (Nat.lt_irrefl x)] at h1 h2
      rw [ltBytes_antisymm_eq xs ys h1 h2]
    · rw [if_pos h] at h2; exact absurd h2 (by simp)

theorem leBytes_of_ltBytes (a b : List Nat) (h : ltBytes a b = true) :
    leBytes a b = true := by
  simp only [leBytes, Bool.not_eq_true']
  by_cases hba : ltBytes b a = true
  · exact absurd (ltBytes_trans a b a h hba) (by simp [ltBytes_irrefl])
  · simpa using hba

theorem leBytes_refl (a : List Nat) : leBytes a a = true := by
  simp [leBytes, ltBytes_irrefl]

theorem leBytes_trans (a b c : List Nat)
    (h1 : leBytes a b = true) (h2 : leBytes b c = true) : leBytes a c = true := by
  have h1' : ltBytes b a = false := by simpa [leBytes] using h1
  have h2' : ltBytes c b = false := by simpa [leBytes] using h2
  simp only [leBytes, Bool.not_eq_true']
  by_cases hca : ltBytes c a = true
  · by_cases hab : ltBytes a b = true
    · exact absurd (ltBytes_trans c a b hca hab) (by simp [h2'])
    · have : a = b := ltBytes_antisymm_eq a b (by simpa using hab) h1'
      subst this
      simp [hca] at h2'
  · simpa using hca

theorem ltBytes_of_lt_of_le (a b c : List Nat)
    (h1 : ltBytes a b = true) (h2 : leBytes b c = true) : ltBytes a c = true := by
  have h2' : ltBytes c b = false := by simpa [leBytes] using h2
  by_cases hac : ltBytes a c = true
  · exact hac
  · exfalso
    by_cases hca : ltBytes c a = true
    · exact absurd (ltBytes_trans c a b hca h1) (by simp [h2'])
    · have : a = c := ltBytes_antisymm_eq a c (by simpa using hac) (by simpa using hca)
      subst this
      simp [h1] at h2'

theorem ltBytes_of_le_of_ne (a b : List Nat)
    (h1 : leBytes a b = true) (h2 : a ≠ b) : ltBytes a b = true := by
  have h1' : ltBytes b a = false := by simpa [leBytes] using h1
  by_cases hab : ltBytes a b = true
  · exact hab
  · exact absurd (ltBytes_antisymm_eq a b (by simpa using hab) h1') h2

theorem inBound_trans_le (incl : Bool) (K y x : List Nat)
    (h1 : StorageEngineItertor.inBound incl K y = true) (h2 : leBytes y x = true) :
    StorageEngineItertor.inBound incl K x = true := by
  cases incl <;> simp only [StorageEngineItertor.inBound, if_true, if_false] at h1 ⊢
  · exact ltBytes_of_lt_of_le K y x h1 h2
  · exact leBytes_trans K y x h1 h2

/-! ## The entry stream of a `StorageEngineItertor` state -/

namespace StorageEngineItertor

/-- The entries the state machine still has in front of it, in the order
they will be popped: the deque first, then (unless the final group was
already collected) the inner iterator's current entry and its remaining
entries. -/
def streamOf (s : StorageEngineItertor) : List Entry :=
  s.entries_to_return ++
    (if s.last_entry_returned then []
     else
       match s.inner.current with
       | some e => e :: s.inner.rest
       | none => s.inner.rest)

/-- The user_key bytes of `streamOf`. -/
def byteStream (s : StorageEngineItertor) : List (List Nat) :=
  (streamOf s).map (fun e => e.1.bytes)

/-- Sortedness of a byte stream: each adjacent pair is `≤`. -/
abbrev ChainLe (l : List (List Nat)) : Prop :=
  List.Chain' (fun a b => leBytes a b = true) l

/-- Executable check for `ChainLe`. -/
def chainLeB : List (List Nat) → Bool
  | [] => true
  | [_] => true
  | a :: b :: rest => leBytes a b && chainLeB (b :: rest)

theorem chainLe_of_chainLeB : ∀ l, chainLeB l = true → ChainLe l
  | [] => fun _ => List.chain'_nil
  | [a] => fun _ => by simp
  | a :: b :: rest => fun h => by
      simp only [chainLeB, Bool.and_eq_true] at h
      exact List.chain'_cons.mpr ⟨h.1, chainLe_of_chainLeB (b :: rest) h.2⟩

theorem chainLe_head_le {b : List Nat} :
    ∀ {l : List (List Nat)}, ChainLe (b :: l) → ∀ x ∈ l, leBytes b x = true := by
  intro l
  induction l generalizing b with
  | nil => intro _ x hx; simp at hx
  | cons c cs ih =>
    intro h x hx
    have h1 : leBytes b c = true := (List.chain'_cons.mp h).1
    have h2 : ChainLe (c :: cs) := (List.chain'_cons.mp h).2
    rcases List.mem_cons.mp hx with rfl | hx'
    · exact h1
    · exact leBytes_trans b c x h1 (ih h2 x hx')

theorem chainLe_suffix {l l' : List (List Nat)} (h : ChainLe l) (hs : l' <:+ l) :
    ChainLe l' := List.Chain'.suffix h hs

theorem byteStream_create (merger : Option Merger) (entries : List Entry) :
    byteStream (create merger entries) = entries.map (fun e => e.1.bytes) := by
  cases entries with
  | nil => rfl
  | cons e r => rfl

theorem byteStream_create_seeked_key (merger : Option Merger) (entries : List Entry)
    (seeked : List Nat) (inclusive : Bool) :
    byteStream (create_seeked_key merger entries seeked inclusive) =
      entries.map (fun e => e.1.bytes) := by
  cases entries with
  | nil => rfl
  | cons e r => rfl

/-! ## Supporting lemmas on the collection and merge helpers -/

theorem collectLoop_spec (gb : List Nat) :
    ∀ l c it', collectLoop gb l = some (c, it') →
      (∀ x ∈ c, x.1.bytes = gb) ∧
      ∃ e', it'.current = some e' ∧ e'.1.bytes ≠ gb ∧ l = c ++ e' :: it'.rest := by
  intro l
  induction l with
  | nil => intro c it' h; simp [collectLoop] at h
  | cons e r ih =>
    intro c it' h
    simp only [collectLoop] at h
    by_cases hb : e.1.bytes = gb
    · rw [if_pos hb] at h
      cases hcl : collectLoop gb r with
      | none => rw [hcl] at h; simp at h
      | some p =>
        rw [hcl] at h
        simp only [Option.map_some', Option.some.injEq] at h
        obtain ⟨c', it''⟩ := p
        obtain ⟨hc, hit⟩ := Prod.mk.injEq .. ▸ h
        subst hc; subst hit
        obtain ⟨hall, e', hcur, hne, heq⟩ := ih c' it'' hcl
        refine ⟨?_, e', hcur, hne, ?_⟩
        · intro x hx
          rcases List.mem_cons.mp hx with rfl | hx'
          · exact hb
          · exact hall x hx'
        · simp [heq]
    · rw [if_neg hb] at h
      simp only [Option.some.injEq] at h
      obtain ⟨hc, hit⟩ := Prod.mk.injEq .. ▸ h
      subst hc; subst hit
      exact ⟨by intro x hx; simp at hx, e, rfl, hb, rfl⟩

theorem mergeFold_bytes (f : Merger) (gb : List Nat) :
    ∀ (c : List Entry) (acc : Entry), acc.1.bytes = gb → (∀ x ∈ c, x.1.bytes = gb) →
      (mergeFold f acc c).1.bytes = gb := by
  intro c
  induction c with
  | nil => intro acc h _; simpa [mergeFold] using h
  | cons x rest ih =>
    intro acc h hall
    obtain ⟨k, v⟩ := x
    have hk : k.bytes = gb := hall (k, v) (List.mem_cons_self _ _)
    simp only [mergeFold]
    cases f acc.2 v with
    | Ok m => exact ih (k, m) hk (fun y hy => hall y (List.mem_cons_of_mem _ hy))
    | DiscardPrevious => exact ih (k, v) hk (fun y hy => hall y (List.mem_cons_of_mem _ hy))

theorem merge_entry_values_singleton (m : Option Merger) (e : Entry) :
    merge_entry_values m [e] = [e] := by
  cases m <;> simp [merge_entry_values]

theorem merge_entry_values_none (l : List Entry) :
    merge_entry_values none l = l := rfl

theorem merge_entry_values_two (f : Merger) (e0 e1 : Entry) (rest : List Entry) :
    merge_entry_values (some f) (e0 :: e1 :: rest) = [mergeFold f e0 (e1 :: rest)] := by
  simp only [merge_entry_values, List.length_cons]
  rw [if_neg (by omega)]

/-- The shape of one successful `do_do_next` step: the yielded entry's
user_key bytes are the head of the state's byte stream, the resulting
state's byte stream is a suffix of the old tail, the seek fields and
merger are untouched, and — when a merger is configured and the deque was
empty — the deque is empty again afterwards and the new stream does not
start with the yielded user_key. -/
theorem do_do_next_yield (s s' : StorageEngineItertor)
    (h : do_do_next s = some (s', true)) :
    ∃ k v t, s'.current_key = some k ∧ s'.current_value = some v ∧
      byteStream s = k.bytes :: t ∧ byteStream s' <:+ t ∧
      s'.seeked_key = s.seeked_key ∧
      s'.is_seeked_key_inclusive = s.is_seeked_key_inclusive ∧
      s'.merger = s.merger ∧
      (s.merger.isSome = true → s.entries_to_return = [] →
        s'.entries_to_return = [] ∧
        (byteStream s' = [] ∨ ∃ b' r', byteStream s' = b' :: r' ∧ b' ≠ k.bytes)) := by
  unfold do_do_next at h
  by_cases hl : s.last_entry_returned
  · simp [hl] at h
  · rw [if_neg hl] at h
    by_cases hd : s.entries_to_return.isEmpty
    · -- deque empty: find_entries refills it
      rw [if_pos hd] at h
      have hde : s.entries_to_return = [] := List.isEmpty_iff.mp hd
      cases hfe : find_entries s with
      | none => rw [hfe] at h; exact Option.noConfusion h
      | some s1 =>
        simp only [hfe] at h
        unfold find_entries at hfe
        cases hcur : s.inner.current with
        | none => simp only [hcur] at hfe; exact Option.noConfusion hfe
        | some e =>
          simp only [hcur] at hfe
          by_cases hn : s.inner.hasNext
          · -- the collection loop runs
            rw [if_pos hn] at hfe
            cases hcl : collectLoop e.1.bytes s.inner.rest with
            | none => simp only [hcl] at hfe; exact Option.noConfusion hfe
            | some p =>
              obtain ⟨c, it'⟩ := p
              simp only [hcl, Option.some.injEq] at hfe
              subst hfe
              obtain ⟨hall, e', hcur', hne, hrest⟩ := collectLoop_spec e.1.bytes _ _ _ hcl
              simp only [hde, List.nil_append] at h
              cases hm : s.merger with
              | none =>
                simp only [hm, merge_entry_values_none, Option.some.injEq,
                  Prod.mk.injEq] at h
                obtain ⟨hs', -⟩ := h
                subst hs'
                refine ⟨e.1, e.2, (c ++ e' :: it'.rest).map (fun x => x.1.bytes),
                  rfl, rfl, ?_, ?_, rfl, rfl, rfl, ?_⟩
                · simp [byteStream, streamOf, hde, hl, hcur, hrest]
                · simp [byteStream, streamOf, hl, hcur']
                · intro hms _; simp [hm] at hms
              | some f =>
                cases c with
                | nil =>
                  simp only [hm, merge_entry_values_singleton, Option.some.injEq,
                    Prod.mk.injEq] at h
                  obtain ⟨hs', -⟩ := h
                  subst hs'
                  refine ⟨e.1, e.2, (e' :: it'.rest).map (fun x => x.1.bytes),
                    rfl, rfl, ?_, ?_, rfl, rfl, rfl, ?_⟩
                  · simp [byteStream, streamOf, hde, hl, hcur, hrest]
                  · simp [byteStream, streamOf, hl, hcur']
                  · intro _ _
                    refine ⟨rfl, Or.inr ⟨e'.1.bytes, it'.rest.map (fun x => x.1.bytes), ?_, hne⟩⟩
                    simp [byteStream, streamOf, hl, hcur']
                | cons c0 cs =>
                  simp only [hm, merge_entry_values_two, Option.some.injEq,
                    Prod.mk.injEq] at h
                  obtain ⟨hs', -⟩ := h
                  subst hs'
                  have hfb : (mergeFold f e (c0 :: cs)).1.bytes = e.1.bytes :=
                    mergeFold_bytes f e.1.bytes (c0 :: cs) e rfl hall
                  refine ⟨(mergeFold f e (c0 :: cs)).1, (mergeFold f e (c0 :: cs)).2,
                    ((c0 :: cs) ++ e' :: it'.rest).map (fun x => x.1.bytes),
                    rfl, rfl, ?_, ?_, rfl, rfl, rfl, ?_⟩
                  · rw [hfb]
                    simp [byteStream, streamOf, hde, hl, hcur, hrest]
                  · simp only [byteStream, streamOf, hcur', List.map_append,
                      List.nil_append, if_neg hl]
                    exact List.suffix_append _ _
                  · intro _ _
                    refine ⟨rfl, Or.inr ⟨e'.1.bytes, it'.rest.map (fun x => x.1.bytes), ?_, ?_⟩⟩
                    · simp [byteStream, streamOf, hl, hcur']
                    · rw [hfb]; exact hne
          · -- no next entry: the final group is the current entry alone
            rw [if_neg hn] at hfe
            simp only [Option.some.injEq] at hfe
            subst hfe
            have hrest : s.inner.rest = [] := by
              simpa [InnerIter.hasNext, List.isEmpty_iff] using hn
            simp only [hde, List.nil_append, merge_entry_values_singleton,
              Option.some.injEq, Prod.mk.injEq] at h
            obtain ⟨hs', -⟩ := h
            subst hs'
            refine ⟨e.1, e.2, [], rfl, rfl, ?_, ?_, rfl, rfl, rfl, ?_⟩
            · simp [byteStream, streamOf, hde, hl, hcur, hrest]
            · simp [byteStream, streamOf]
            · intro _ _
              exact ⟨rfl, Or.inl (by simp [byteStream, streamOf])⟩
    · -- deque nonempty: pop its head
      rw [if_neg hd] at h
      cases he : s.entries_to_return with
      | nil => rw [he] at hd; simp at hd
      | cons e rest =>
        simp only [he, Option.some.injEq, Prod.mk.injEq] at h
        obtain ⟨hs', -⟩ := h
        subst hs'
        refine ⟨e.1, e.2, byteStream { s with entries_to_return := rest },
          rfl, rfl, ?_, ?_, rfl, rfl, rfl, ?_⟩
        · simp [byteStream, streamOf, he]
        · simp [byteStream, streamOf]
        · intro _ h0; exact absurd h0 (List.cons_ne_nil e rest)

theorem do_do_next_some (s s' : StorageEngineItertor)
    (h : do_do_next s = some (s', true)) :
    s'.current_key.isSome = true ∧ s'.current_value.isSome = true := by
  obtain ⟨k, v, t, h1, h2, -⟩ := do_do_next_yield s s' h
  exact ⟨by simp [h1], by simp [h2]⟩

/-- Every successful `next()` leaves `current_key` and `current_value`
populated. -/
theorem seiNext_some : ∀ (fuel : Nat) (s s' : StorageEngineItertor),
    seiNext fuel s = some (s', true) →
    s'.current_key.isSome = true ∧ s'.current_value.isSome = true := by
  intro fuel
  induction fuel with
  | zero => intro s s' h; simp [seiNext] at h
  | succ n ih =>
    intro s s' h
    simp only [seiNext] at h
    cases hdd : do_do_next s with
    | none => rw [hdd] at h; exact Option.noConfusion h
    | some p =>
      obtain ⟨t, b⟩ := p
      cases b with
      | false => simp only [hdd] at h; exact absurd h (by simp)
      | true =>
        simp only [hdd] at h
        cases htk : t.seeked_key with
        | none =>
          simp only [htk, Option.some.injEq, Prod.mk.injEq] at h
          obtain ⟨rfl, -⟩ := h
          exact do_do_next_some s t hdd
        | some sk =>
          simp only [htk] at h
          cases hck : t.current_key with
          | none => simp only [hck] at h; exact Option.noConfusion h
          | some k =>
            simp only [hck] at h
            by_cases hib : inBound t.is_seeked_key_inclusive sk k.bytes = true
            · rw [if_pos hib] at h
              simp only [Option.some.injEq, Prod.mk.injEq] at h
              obtain ⟨rfl, -⟩ := h
              have := do_do_next_some s t hdd
              exact ⟨by simpa using this.1, by simpa using this.2⟩
            · rw [if_neg hib] at h
              exact ih t s' h

/-- Invariant preservation for a seeked iterator: a successful `next()`
yields an in-bound entry, keeps the byte stream sorted, clears the seek
bound and leaves every remaining entry in bound. -/
theorem seiNext_yield_seek (K : List Nat) (incl : Bool) :
    ∀ (fuel : Nat) (s s' : StorageEngineItertor),
      ChainLe (byteStream s) →
      (s.seeked_key = some K ∨
        (s.seeked_key = none ∧ ∀ b ∈ byteStream s, inBound incl K b = true)) →
      s.is_seeked_key_inclusive = incl →
      seiNext fuel s = some (s', true) →
      (∃ k, s'.current_key = some k ∧ inBound incl K k.bytes = true) ∧
      ChainLe (byteStream s') ∧ s'.seeked_key = none ∧
      (∀ b ∈ byteStream s', inBound incl K b = true) ∧
      s'.is_seeked_key_inclusive = incl := by
  intro fuel
  induction fuel with
  | zero => intro s s' _ _ _ h; simp [seiNext] at h
  | succ n ih =>
    intro s s' hch hsk hic h
    simp only [seiNext] at h
    cases hdd : do_do_next s with
    | none => rw [hdd] at h; exact Option.noConfusion h
    | some p =>
      obtain ⟨t, b⟩ := p
      cases b with
      | false => simp only [hdd] at h; exact absurd h (by simp)
      | true =>
        simp only [hdd] at h
        obtain ⟨k, v, tl, hk, hv, hbs, hsuf, hskeq, hiceq, -, -⟩ :=
          do_do_next_yield s t hdd
        have htl : tl <:+ byteStream s := hbs ▸ List.suffix_cons k.bytes tl
        have hcht : ChainLe (byteStream t) :=
          chainLe_suffix hch (hsuf.trans htl)
        have hmem : ∀ b ∈ byteStream t, b ∈ tl := fun b hb => hsuf.subset hb
        rcases hsk with hseek | ⟨hseek, hbound⟩
        · -- still seeking: the bound is checked on the yielded entry
          rw [hskeq, hseek] at h
          simp only [hk] at h
          rw [hiceq, hic] at h
          by_cases hib : inBound incl K k.bytes = true
          · rw [if_pos hib] at h
            simp only [Option.some.injEq, Prod.mk.injEq] at h
            obtain ⟨rfl, -⟩ := h
            have hble : ∀ b ∈ tl, leBytes k.bytes b = true := by
              have := hbs ▸ hch
              exact fun b hb => chainLe_head_le this b hb
            refine ⟨⟨k, by simpa using hk, hib⟩, ?_, rfl, ?_, by simpa using hiceq.trans hic⟩
            · simpa [byteStream, streamOf] using hcht
            · intro b hb
              have hb' : b ∈ byteStream t := by simpa [byteStream, streamOf] using hb
              exact inBound_trans_le incl K k.bytes b hib (hble b (hmem b hb'))
          · rw [if_neg hib] at h
            exact ih t s' hcht (Or.inl (hskeq.trans hseek)) (hiceq.trans hic) h
        · -- bound already cleared: every remaining entry is in bound
          rw [hskeq, hseek] at h
          simp only [Option.some.injEq, Prod.mk.injEq] at h
          obtain ⟨rfl, -⟩ := h
          have hkb : inBound incl K k.bytes = true :=
            hbound k.bytes (by rw [hbs]; exact List.mem_cons_self _ _)
          refine ⟨⟨k, hk, hkb⟩, hcht, hskeq.trans hseek, ?_, hiceq.trans hic⟩
          intro b hb
          exact hbound b (htl.subset (hmem b hb))

/-- Run-level bound: when the byte stream is sorted, every entry a seeked
run yields is in bound. -/
theorem seiRun_seek_bound (K : List Nat) (incl : Bool) :
    ∀ (fuel : Nat) (s : StorageEngineItertor),
      ChainLe (byteStream s) →
      (s.seeked_key = some K ∨
        (s.seeked_key = none ∧ ∀ b ∈ byteStream s, inBound incl K b = true)) →
      s.is_seeked_key_inclusive = incl →
      ∀ e ∈ seiRun fuel s, inBound incl K e.1.bytes = true := by
  intro fuel
  induction fuel with
  | zero => intro s _ _ _ e he; simp [seiRun] at he
  | succ n ih =>
    intro s hch hsk hic e he
    simp only [seiRun] at he
    cases hsn : seiNext (n + 1) s with
    | none => rw [hsn] at he; simp at he
    | some p =>
      obtain ⟨s', b⟩ := p
      cases b with
      | false => simp only [hsn] at he; exact absurd he (by simp)
      | true =>
        simp only [hsn] at he
        obtain ⟨⟨k, hk, hkb⟩, hch', hsk', hbound', hic'⟩ :=
          seiNext_yield_seek K incl (n + 1) s s' hch hsk hic hsn
        have hv := (seiNext_some (n + 1) s s' hsn).2
        cases hcv : s'.current_value with
        | none => rw [hcv] at hv; simp at hv
        | some v =>
          rw [hk, hcv] at he
          simp only [List.mem_cons] at he
          rcases he with rfl | he'
          · exact hkb
          · exact ih s' hch' (Or.inr ⟨hsk', hbound'⟩) hic' e he'

theorem ltBytes_ne (a b : List Nat) (h : ltBytes a b = true) : a ≠ b := by
  intro hab
  subst hab
  simp [ltBytes_irrefl] at h

/-- The drain-and-fold loop of `merge_entry_values` is the left fold of the
specification's accumulator step ("applied pairwise across the collected
versions in oldest-to-newest order ... `DiscardPrevious` resets the
accumulator to `next`"). -/
theorem mergeFold_eq_foldl (f : Merger) :
    ∀ (l : List Entry) (acc : Entry),
      mergeFold f acc l =
        l.foldl (fun acc next =>
          match f acc.2 next.2 with
          | .Ok m => (next.1, m)
          | .DiscardPrevious => next) acc := by
  intro l
  induction l with
  | nil => intro acc; rfl
  | cons x rest ih =>
    intro acc
    obtain ⟨k, v⟩ := x
    simp only [mergeFold, List.foldl_cons]
    cases f acc.2 v with
    | Ok m => exact ih (k, m)
    | DiscardPrevious => exact ih (k, v)

/-- Run-level uniqueness: with a merger configured, an empty deque, no seek
bound and a sorted byte stream, the user_keys the run yields are pairwise
distinct, and each comes from the current byte stream. -/
theorem seiRun_merger_nodup (f : Merger) :
    ∀ (fuel : Nat) (s : StorageEngineItertor),
      s.merger = some f → s.entries_to_return = [] → s.seeked_key = none →
      ChainLe (byteStream s) →
      ((seiRun fuel s).map (fun e => e.1.bytes)).Nodup ∧
      (∀ b ∈ (seiRun fuel s).map (fun e => e.1.bytes), b ∈ byteStream s) := by
  intro fuel
  induction fuel with
  | zero => intro s _ _ _ _; simp [seiRun]
  | succ n ih =>
    intro s hm hd hsknone hch
    simp only [seiRun]
    cases hsn : seiNext (n + 1) s with
    | none => simp
    | some p =>
      obtain ⟨t, b⟩ := p
      cases b with
      | false => simp
      | true =>
        have hsn' := hsn
        simp only [seiNext] at hsn'
        cases hdd : do_do_next s with
        | none => rw [hdd] at hsn'; exact Option.noConfusion hsn'
        | some q =>
          obtain ⟨t0, b0⟩ := q
          cases b0 with
          | false => simp only [hdd] at hsn'; exact absurd hsn' (by simp)
          | true =>
            simp only [hdd] at hsn'
            obtain ⟨k, v, tl, hk, hv, hbs, hsuf, hskeq, -, hmeq, hcond⟩ :=
              do_do_next_yield s t0 hdd
            rw [hskeq, hsknone] at hsn'
            simp only [Option.some.injEq, Prod.mk.injEq] at hsn'
            obtain ⟨rfl, -⟩ := hsn'
            obtain ⟨hd', hshape⟩ := hcond (by rw [hm]; rfl) hd
            have htl : tl <:+ byteStream s := hbs ▸ List.suffix_cons k.bytes tl
            have hch0 : ChainLe (byteStream t0) := chainLe_suffix hch (hsuf.trans htl)
            have hge : ∀ b ∈ tl, leBytes k.bytes b = true :=
              fun b hb => chainLe_head_le (hbs ▸ hch) b hb
            have hgt : ∀ b ∈ byteStream t0, ltBytes k.bytes b = true := by
              intro b hb
              rcases hshape with hnil | ⟨b', r', hcons, hne⟩
              · rw [hnil] at hb; simp at hb
              · have hb'mem : b' ∈ byteStream t0 := by
                  rw [hcons]; exact List.mem_cons_self b' r'
                have hb'gt : ltBytes k.bytes b' = true := by
                  have hle : leBytes k.bytes b' = true :=
                    hge b' (hsuf.subset hb'mem)
                  exact ltBytes_of_le_of_ne k.bytes b' hle (Ne.symm hne)
                rw [hcons] at hb
                rcases List.mem_cons.mp hb with rfl | hbr
                · exact hb'gt
                · have hble : leBytes b' b = true :=
                    chainLe_head_le (hcons ▸ hch0) b hbr
                  exact ltBytes_of_lt_of_le k.bytes b' b hb'gt hble
            obtain ⟨ihnodup, ihsub⟩ :=
              ih t0 (hmeq.trans hm) hd' (hskeq.trans hsknone) hch0
            simp only [hk, hv, List.map_cons]
            constructor
            · refine List.nodup_cons.mpr ⟨?_, ihnodup⟩
              intro hmem
              have hbt : k.bytes ∈ byteStream t0 := ihsub k.bytes hmem
              exact absurd (hgt k.bytes hbt) (by simp [ltBytes_irrefl])
            · intro b hb
              rcases List.mem_cons.mp hb with rfl | hbtail
              · rw [hbs]; exact List.mem_cons_self _ _
              · exact htl.subset (hsuf.subset (ihsub b hbtail))

end StorageEngineItertor

/-! ## C6 / C8 supporting lemmas -/

theorem rat_log (written : Nat → Bool) :
    ∀ (ids : List Nat) (acc : TxnMgr),
      (ids.foldl
        (fun a id =>
          if written id then a.rollback id
          else a.rollback_active_transaction_failure id) acc).log =
        acc.log ++ (ids.filter (fun i => written i)).map TxnLogRecord.rollbackRec := by
  intro ids
  induction ids with
  | nil => intro acc; simp
  | cons i rest ih =>
    intro acc
    simp only [List.foldl_cons, List.filter_cons]
    by_cases hw : written i = true
    · rw [if_pos hw, ih]
      simp [TxnMgr.rollback, hw]
    · rw [if_neg hw, ih]
      simp [TxnMgr.rollback_active_transaction_failure, hw]

theorem rat_active (written : Nat → Bool) :
    ∀ (ids : List Nat) (acc : TxnMgr),
      (ids.foldl
        (fun a id =>
          if written id then a.rollback id
          else a.rollback_active_transaction_failure id) acc).active =
        ids.foldl (fun A id => A.erase id) acc.active := by
  intro ids
  induction ids with
  | nil => intro acc; rfl
  | cons i rest ih =>
    intro acc
    simp only [List.foldl_cons]
    by_cases hw : written i = true
    · rw [if_pos hw, ih]
      simp [TxnMgr.rollback]
    · rw [if_neg hw, ih]
      simp [TxnMgr.rollback_active_transaction_failure]

theorem foldl_erase_self : ∀ l : List Nat, List.foldl (fun A id => A.erase id) l l = [] := by
  intro l
  induction l with
  | nil => rfl
  | cons x xs ih =>
    have h1 : List.foldl (fun A id => A.erase id) (x :: xs) (x :: xs) =
        List.foldl (fun A id => A.erase id) ((x :: xs).erase x) xs := rfl
    rw [h1, List.erase_cons_head]
    exact ih

theorem write_batch_events_all (fails : WriteBatch → Bool) (txnId : Nat) :
    ∀ batch : List WriteBatch,
      ((write_batch_events fails txnId batch).all
        (fun ev => !ev.isStartTxn && ev.opTxnId == some txnId)) = true := by
  intro batch
  induction batch with
  | nil => rfl
  | cons r rest ih =>
    cases r with
    | Put ks k v =>
      simp only [write_batch_events]
      by_cases hf : fails (WriteBatch.Put ks k v) = true
      · rw [if_pos hf]
        simp [StorageEvent.isStartTxn, StorageEvent.opTxnId]
      · rw [if_neg hf, List.all_cons, ih]
        simp [StorageEvent.isStartTxn, StorageEvent.opTxnId]
    | Delete ks k =>
      simp only [write_batch_events]
      by_cases hf : fails (WriteBatch.Delete ks k) = true
      · rw [if_pos hf]
        simp [StorageEvent.isStartTxn, StorageEvent.opTxnId]
      · rw [if_neg hf, List.all_cons, ih]
        simp [StorageEvent.isStartTxn, StorageEvent.opTxnId]

/-! ## Concrete inputs used by counterexamples and witnesses -/

/-- Versions `a@1, a@3, b@1` — the inner iterator order the repository's own
memtable tests exhibit (ascending user_key, ascending txn_id). -/
def exVersions : List Entry := [(⟨[97], 1⟩, [1]), (⟨[97], 3⟩, [2]), (⟨[98], 1⟩, [3])]

/-- A single-entry inner iterator. -/
def exSingle : List Entry := [(⟨[97], 1⟩, [1])]

/-- The memtable side of the spec's two-way-merge scenario:
`{a→1, b→2, d→4}`. -/
def exA : List Entry := [(⟨[97], 0⟩, [1]), (⟨[98], 0⟩, [2]), (⟨[100], 0⟩, [4])]

/-- The SSTable side of the spec's two-way-merge scenario:
`{a→1, c→3, d→4, f→5}`. -/
def exB : List Entry :=
  [(⟨[97], 0⟩, [1]), (⟨[99], 0⟩, [3]), (⟨[100], 0⟩, [4]), (⟨[102], 0⟩, [5])]

/-- A concrete merger: sum of first bytes, with `[10]` as a
`DiscardPrevious` sentinel (mirrors the repository's
`iterator_merger_fn` test). -/
def sumMerge : Merger := fun a b =>
  if b = [10] then .DiscardPrevious else .Ok [a.headD 0 + b.headD 0]

/-- The state after one successful `next()` on `create none exSingle`. -/
def sC10 : StorageEngineItertor :=
  { merger := none
    inner := ⟨some (⟨[97], 1⟩, [1]), []⟩
    entries_to_return := []
    current_key := some ⟨[97], 1⟩
    current_value := some [1]
    seeked_key := none
    is_seeked_key_inclusive := false
    last_entry_returned := true }

/-! ## Claim theorems -/

/-- C1 counterexample: with no merge function configured, the
storage-engine iterator yields every collected version of a user_key
individually — on versions `a@1, a@3, b@1` the user_key `a` ( `[97]` ) is
yielded twice, so the yielded user_keys are not pairwise distinct and no
MVCC visibility selection takes place.  (The repository's own test
`iterator_no_merger_fn` asserts exactly this double emission for
`alberto`.) -/
theorem c1_counterexample :
    ¬ (((StorageEngineItertor.seiRun 8 (StorageEngineItertor.create none exVersions)).map
        (fun e => e.1.bytes)).Nodup) ∧
    (StorageEngineItertor.seiRun 8 (StorageEngineItertor.create none exVersions)).map
        (fun e => e.1.bytes) = [[97], [97], [98]] :=
  ⟨by decide, by decide⟩

/-- C1 (amended): when a merge function is configured and the inner
iterator's user_key bytes are sorted, the storage-engine iterator yields
each user_key at most once (each contiguous group of versions is collapsed
into a single merged entry); without a merge function every version is
emitted individually, and the iterator performs no MVCC visibility
filtering. -/
theorem c1_amended_each_user_key_once_with_merger (f : Merger) (fuel : Nat)
    (entries : List Entry)
    (hsorted : StorageEngineItertor.ChainLe (entries.map (fun e => e.1.bytes))) :
    ((StorageEngineItertor.seiRun fuel
        (StorageEngineItertor.create (some f) entries)).map
      (fun e => e.1.bytes)).Nodup := by
  have hch : StorageEngineItertor.ChainLe
      (StorageEngineItertor.byteStream (StorageEngineItertor.create (some f) entries)) := by
    rw [StorageEngineItertor.byteStream_create]; exact hsorted
  exact (StorageEngineItertor.seiRun_merger_nodup f fuel
    (StorageEngineItertor.create (some f) entries) rfl rfl rfl hch).1

/-- Witness for the amended C1 at a concrete sorted input with a concrete
merger. -/
theorem c1_amended_witness :
    StorageEngineItertor.ChainLe (exVersions.map (fun e => e.1.bytes)) ∧
    ((StorageEngineItertor.seiRun 8
        (StorageEngineItertor.create (some sumMerge) exVersions)).map
      (fun e => e.1.bytes)).Nodup :=
  ⟨StorageEngineItertor.chainLe_of_chainLeB _ (by decide),
   c1_amended_each_user_key_once_with_merger sumMerge 8 exVersions
     (StorageEngineItertor.chainLe_of_chainLeB _ (by decide))⟩

/-- C2: one iteration of the compaction worker loop appends the completion
record for the manifest operation whenever `append_operation` succeeded,
regardless of whether the compaction itself failed (`compactFails` does
not influence the resulting manifest) — contradicting the claim that the
operation is left without a completion record on error. -/
theorem c2_completion_despite_failure (m : List ManifestRecord) (opId : Nat)
    (compactFails : Bool) :
    start_compactions_iteration m (some opId) compactFails =
      m ++ [ManifestRecord.operation opId, ManifestRecord.completion opId] := by
  simp [start_compactions_iteration]

/-- C3: `Storage::scan_all` starts a `SnapshotIsolation` transaction but
returns the bare `TwoMergeIterator`-typed `StorageIterator`, which holds
no reference to the transaction manager and has no `Drop` impl, so after
the iterator is dropped the transaction (txn_id 1 here) is still in the
active set and no commit record was written. -/
theorem c3_scan_all_transaction_leaked :
    (dropStorageIterator (scan_all ⟨1, [], []⟩ exA exB).1
        (scan_all ⟨1, [], []⟩ exA exB).2).active = [1] ∧
    TxnLogRecord.commitRec 1 ∉
      (dropStorageIterator (scan_all ⟨1, [], []⟩ exA exB).1
        (scan_all ⟨1, [], []⟩ exA exB).2).log :=
  ⟨rfl, by decide⟩

/-- C4: on the spec's own scenario — A = `{a→1, b→2, d→4}` (memtable),
B = `{a→1, c→3, d→4, f→5}` (SSTable) — the two-way merge iterator yields
`a→1, c→3, d→4, f→5, b→2, d→4`: out of order, with a duplicated `d` and
with B preferred on the equal key, not the claimed
`a→1, b→2, c→3, d→4, f→5`. -/
theorem c4_two_merge_wrong_output :
    TwoMergeIterator.tmRun 16 (TwoMergeIterator.new exA exB) =
      [(⟨[97], 0⟩, [1]), (⟨[99], 0⟩, [3]), (⟨[100], 0⟩, [4]),
       (⟨[102], 0⟩, [5]), (⟨[98], 0⟩, [2]), (⟨[100], 0⟩, [4])] ∧
    TwoMergeIterator.tmRun 16 (TwoMergeIterator.new exA exB) ≠
      [(⟨[97], 0⟩, [1]), (⟨[98], 0⟩, [2]), (⟨[99], 0⟩, [3]),
       (⟨[100], 0⟩, [4]), (⟨[102], 0⟩, [5])] :=
  ⟨by decide, by decide⟩

/-- C5: with a merge function configured and at least two collected
versions, `merge_entry_values` replaces the collected versions by the
single entry obtained by folding the merge function over them in
oldest-to-newest (front-to-back) order, the accumulator starting at the
oldest version, and `DiscardPrevious` resetting the accumulator to the
`next` entry. -/
theorem c5_merge_oldest_to_newest (f : Merger) (e0 e1 : Entry) (rest : List Entry) :
    StorageEngineItertor.merge_entry_values (some f) (e0 :: e1 :: rest) =
      [(e1 :: rest).foldl (fun acc next =>
          match f acc.2 next.2 with
          | .Ok m => (next.1, m)
          | .DiscardPrevious => next) e0] := by
  rw [StorageEngineItertor.merge_entry_values_two, StorageEngineItertor.mergeFold_eq_foldl]

/-- C6: on engine start, for every txn_id in the recovered active set,
`Storage::rollback_active_transactions` issues a rollback (appending a
rollback record) when some keyspace holds a physical write of that txn_id,
and otherwise force-aborts it through
`rollback_active_transaction_failure`, which appends no rollback record;
either way the txn_id leaves the active set. -/
theorem c6_recovery_rollback_dispatch (written : Nat → Bool) (st : TxnMgr) (id : Nat)
    (hmem : id ∈ st.active)
    (hclean : TxnLogRecord.rollbackRec id ∉ st.log) :
    (written id = true →
      TxnLogRecord.rollbackRec id ∈ (rollback_active_transactions written st).log) ∧
    (written id = false →
      TxnLogRecord.rollbackRec id ∉ (rollback_active_transactions written st).log) ∧
    id ∉ (rollback_active_transactions written st).active := by
  have hlog : (rollback_active_transactions written st).log =
      st.log ++ (st.active.filter (fun i => written i)).map TxnLogRecord.rollbackRec :=
    rat_log written st.active st
  have hact : (rollback_active_transactions written st).active =
      st.active.foldl (fun A i => A.erase i) st.active :=
    rat_active written st.active st
  refine ⟨?_, ?_, ?_⟩
  · intro hw
    rw [hlog]
    exact List.mem_append_right _
      (List.mem_map.mpr ⟨id, List.mem_filter.mpr ⟨hmem, hw⟩, rfl⟩)
  · intro hw hcon
    rw [hlog] at hcon
    rcases List.mem_append.mp hcon with hin | hin
    · exact hclean hin
    · obtain ⟨j, hj, hje⟩ := List.mem_map.mp hin
      have : j = id := by injection hje
      subst this
      have := (List.mem_filter.mp hj).2
      simp [hw] at this
  · rw [hact, foldl_erase_self]
    simp

/-- Witness for C6: manager with active txns 1 and 2, txn 1 written
somewhere; after recovery a rollback record exists for 1 and 1 left the
active set. -/
theorem c6_witness :
    TxnLogRecord.rollbackRec 1 ∈
      (rollback_active_transactions (fun i => i == 1) ⟨5, [1, 2], []⟩).log ∧
    1 ∉ (rollback_active_transactions (fun i => i == 1) ⟨5, [1, 2], []⟩).active :=
  ⟨(c6_recovery_rollback_dispatch (fun i => i == 1) ⟨5, [1, 2], []⟩ 1
      (by decide) (by decide)).1 (by decide),
   (c6_recovery_rollback_dispatch (fun i => i == 1) ⟨5, [1, 2], []⟩ 1
      (by decide) (by decide)).2.2⟩

/-- C7: a storage-engine iterator constructed with `create_seeked_key`
over entries with sorted user_key bytes yields only entries whose
user_key bytes are `≥` the seek key when inclusive and `>` it when
exclusive; entries below the bound are skipped, never returned. -/
theorem c7_seek_bound (merger : Option Merger) (fuel : Nat) (entries : List Entry)
    (K : List Nat) (incl : Bool)
    (hsorted : StorageEngineItertor.ChainLe (entries.map (fun e => e.1.bytes))) :
    ∀ e ∈ StorageEngineItertor.seiRun fuel
        (StorageEngineItertor.create_seeked_key merger entries K incl),
      StorageEngineItertor.inBound incl K e.1.bytes = true := by
  apply StorageEngineItertor.seiRun_seek_bound K incl fuel
  · rw [StorageEngineItertor.byteStream_create_seeked_key]; exact hsorted
  · exact Or.inl rfl
  · rfl

/-- Witness for C7: seeking `[98]` inclusively over `a@1, a@3, b@1` yields
the entry `b@1`, which is in bound. -/
theorem c7_witness :
    StorageEngineItertor.ChainLe (exVersions.map (fun e => e.1.bytes)) ∧
    ((⟨[98], 1⟩, [3]) : Entry) ∈ StorageEngineItertor.seiRun 8
        (StorageEngineItertor.create_seeked_key none exVersions [98] true) ∧
    StorageEngineItertor.inBound true [98] ((⟨[98], 1⟩ : Key)).bytes = true :=
  ⟨StorageEngineItertor.chainLe_of_chainLeB _ (by decide), by decide,
   c7_seek_bound none 8 exVersions [98] true (StorageEngineItertor.chainLe_of_chainLeB _ (by decide))
     ((⟨[98], 1⟩, [3]) : Entry) (by decide)⟩

/-- C8: `write_batch` starts exactly one `SnapshotIsolation` transaction at
the beginning of the call, and every Put/Delete record of the batch that
executes is applied under that one transaction; no record starts a
transaction of its own. -/
theorem c8_write_batch_one_transaction (fails : WriteBatch → Bool) (st : TxnMgr)
    (batch : List WriteBatch) :
    write_batch fails st batch =
      StorageEvent.startTxn st.nextTxnId IsolationLevel.SnapshotIsolation ::
        write_batch_events fails st.nextTxnId batch ∧
    ((write_batch_events fails st.nextTxnId batch).all
      (fun ev => !ev.isStartTxn && ev.opTxnId == some st.nextTxnId)) = true :=
  ⟨rfl, write_batch_events_all fails st.nextTxnId batch⟩

/-- C9: the standalone `Storage::delete` starts a `ReadUncommited`
transaction, while the standalone `get`, `set`, `scan_all` and
`write_batch` all start `SnapshotIsolation` transactions — the standalone
delete is the only single-shot facade operation not under snapshot
isolation. -/
theorem c9_standalone_isolation (st : TxnMgr) (ks : Nat) (key : String) (v : Value) :
    startedIsolation (delete_standalone st ks key) = some IsolationLevel.ReadUncommited ∧
    startedIsolation (get_standalone st ks key) = some IsolationLevel.SnapshotIsolation ∧
    startedIsolation (set_standalone st ks key v) = some IsolationLevel.SnapshotIsolation ∧
    scan_all_start_event st =
      StorageEvent.startTxn st.nextTxnId IsolationLevel.SnapshotIsolation ∧
    startedIsolation (write_batch (fun _ => false) st []) =
      some IsolationLevel.SnapshotIsolation :=
  ⟨rfl, rfl, rfl, rfl, rfl⟩

/-- C10: a freshly created storage-engine iterator has `current_key` and
`current_value` both `None` (so `key()`/`value()` would panic on their
`unwrap`), and after any `next()` that returned `true` both fields are
populated. -/
theorem c10_current_fields (merger : Option Merger) (entries : List Entry)
    (fuel : Nat) (s s' : StorageEngineItertor)
    (h : StorageEngineItertor.seiNext fuel s = some (s', true)) :
    ((StorageEngineItertor.create merger entries).current_key = none ∧
     (StorageEngineItertor.create merger entries).current_value = none) ∧
    (s'.current_key.isSome = true ∧ s'.current_value.isSome = true) :=
  ⟨⟨rfl, rfl⟩, StorageEngineItertor.seiNext_some fuel s s' h⟩

/-- Witness for C10: one concrete `next()` on a single-entry iterator. -/
theorem c10_witness :
    ((StorageEngineItertor.create none exSingle).current_key = none ∧
     (StorageEngineItertor.create none exSingle).current_value = none) ∧
    (sC10.current_key.isSome = true ∧ sC10.current_value.isSome = true) :=
  c10_current_fields none exSingle 2 (StorageEngineItertor.create none exSingle) sC10 rfl

end MiniLsm
